import Mathlib

/-!
# Verification of the faculty-feedback survey analyzer

A shallow embedding of the core logic of the rvit-faculty-feedback
repository (app.py, app3.py, app4.py, app5.py, app6.py, app7.py): the
rating scale, the subject-name normalizer, the column classifier, the row
filter, the aggregator and the distribution summarizer.

Text is modelled as a list of Unicode codepoints (`List Nat`); a Python
string literal `"s"` becomes `str (r"s")`.  Python's `None`/`NaN` cells
become `Option`.  Rational numbers stand for Python floats: every number
the programs compute here is an exact ratio of machine integers, so ℚ is a
faithful model of the arithmetic involved.
-/

/-- A Python string as the list of its codepoints. -/
def str (s : String) : List Nat := s.data.map Char.toNat

/-- Python's notion of whitespace for `str.split()` / `str.strip()`
(space, tab, newline, carriage return, vertical tab, form feed). -/
def is_ws (c : Nat) : Bool :=
  c = 32 || c = 9 || c = 10 || c = 13 || c = 11 || c = 12

/-- Python `str.upper()` on one (ASCII) codepoint. -/
def py_upper_ch (c : Nat) : Nat :=
  if 97 ≤ c ∧ c ≤ 122 then c - 32 else c

/-- Python `str.strip()`: drop leading and trailing whitespace. -/
def py_strip (s : List Nat) : List Nat :=
  ((s.dropWhile is_ws).reverse.dropWhile is_ws).reverse

/-- Helper for `split_ws`: `cur` is the reversed word being read. -/
def split_ws_aux : List Nat → List Nat → List (List Nat)
  | cur, [] => if cur = [] then [] else [cur.reverse]
  | cur, c :: cs =>
    if is_ws c then
      if cur = [] then split_ws_aux [] cs else cur.reverse :: split_ws_aux [] cs
    else split_ws_aux (c :: cur) cs

/-- Python `str.split()` with no argument: split on runs of whitespace, dropping
empty pieces. -/
def split_ws (s : List Nat) : List (List Nat) := split_ws_aux [] s

/-- Python `' '.join(words)`. -/
def join_sp : List (List Nat) → List Nat
  | [] => []
  | [w] => w
  | w :: ws => w ++ 32 :: join_sp ws

/-- The `normalize_subject_name` of app4.py/app5.py (the string-level
normalizer; app6.py/app7.py wrap the same expression in a `pd.isna` guard
that never fires for the header slices it is applied to):
`' '.join(name.strip().upper().split())`. -/
def normalize_subject_name (s : List Nat) : List Nat :=
  join_sp (split_ws ((py_strip s).map py_upper_ch))

/-- The `convert_rating_to_score` of app6.py/app7.py: `None` (NaN) and any
unrecognized label yield no score; exactly the five canonical labels yield
5,4,3,2,1. -/
def convert_rating_to_score : Option (List Nat) → Option Nat
  | none => none
  | some r =>
    if r = str (r"Excellent") then some 5
    else if r = str (r"Very Good") then some 4
    else if r = str (r"Good") then some 3
    else if r = str (r"Fair") then some 2
    else if r = str (r"Poor") then some 1
    else none

/-- Python `s.find(c)` for a single character: the index of the first
occurrence, or `-1`. -/
def py_find (c : Nat) : List Nat → Int
  | [] => -1
  | d :: ds =>
    if d = c then 0
    else
      let r := py_find c ds
      if r < 0 then -1 else r + 1

/-- Prefix test: `starts_with pat s` holds when `pat` is a leading segment of `s`. -/
def starts_with : List Nat → List Nat → Bool
  | [], _ => true
  | _ :: _, [] => false
  | p :: ps, c :: cs => p = c && starts_with ps cs

/-- Python's substring test `pat in s`. -/
def contains_sub (pat : List Nat) : List Nat → Bool
  | [] => starts_with pat []
  | c :: cs => starts_with pat (c :: cs) || contains_sub pat cs

/-- Column classification of app5.py/app6.py/app7.py
(`calculate_average_scores`, header test and slice): a header yields the
raw label between its first `[` and its first `]` when it contains
`"Subjects ["` or `"Subject ["` and the slice is nonempty. -/
def extract_label (h : List Nat) : Option (List Nat) :=
  if contains_sub (str (r"Subjects [")) h || contains_sub (str (r"Subject [")) h then
    let start_idx : Int := py_find 91 h + 1
    let end_idx : Int := py_find 93 h
    if start_idx > 0 ∧ end_idx > start_idx then
      some ((h.take end_idx.toNat).drop start_idx.toNat)
    else none
  else none

/-- The full header-to-SubjectKey pipeline of app6.py lines 63-69:
extract the bracketed label, normalize it, and drop it when the normalized
name is empty (Python string truthiness `if subject_name:`). -/
def subject_of_header (h : List Nat) : Option (List Nat) :=
  match extract_label h with
  | none => none
  | some raw =>
    let name := normalize_subject_name raw
    if name = [] then none else some name

/-! ## Row model and the row filter -/

/-- One respondent record: all categorical fields the masks of app.py and
app7.py read.  The timestamp is in seconds; a missing (NaN) categorical
cell is `none`. -/
structure Row where
  ts : Nat
  year_sem : Option (List Nat)
  gender : Option (List Nat)
  branch : Option (List Nat)
  section_type : Option (List Nat)
deriving DecidableEq

/-- The filter criteria: `from`/`to` as calendar-day numbers plus one
accepted-value list per categorical dimension. -/
structure Criteria where
  from_day : Nat
  to_day : Nat
  year_sems : List (List Nat)
  genders : List (List Nat)
  branches : List (List Nat)
  section_types : List (List Nat)
deriving DecidableEq

/-- List membership of a string value, Boolean (pandas `.isin`). -/
def elem_str (v : List Nat) : List (List Nat) → Bool
  | [] => false
  | w :: ws => if v = w then true else elem_str v ws

/-- Pandas `series.isin(accepted)` on one cell without `fillna`: a NaN cell is in
no list of string values (app.py line 84-87). -/
def isin_opt (a : Option (List Nat)) (accepted : List (List Nat)) : Bool :=
  match a with
  | none => false
  | some v => elem_str v accepted

/-- Seconds per day. -/
def day_len : Nat := 86400

/-- The mask of app.py lines 81-88.  `from_date` is midnight of the from
day; `to_date` is `pd.to_datetime(to_date) + Timedelta(days=1) -
Timedelta(seconds=1)` (app.py line 54), the last second of the to day. -/
def row_mask (c : Criteria) (r : Row) : Bool :=
  decide (c.from_day * day_len ≤ r.ts) &&
  decide (r.ts ≤ (c.to_day + 1) * day_len - 1) &&
  isin_opt r.gender c.genders &&
  isin_opt r.branch c.branches &&
  isin_opt r.section_type c.section_types &&
  isin_opt r.year_sem c.year_sems

/-- The `df.loc[mask]` of app.py: the subsequence of rows passing the mask. -/
def filter_rows (c : Criteria) (rows : List Row) : List Row :=
  rows.filter (row_mask c)

/-- Pandas `series.fillna("nan").isin(accepted)` on one cell (app7.py lines
209-212): a missing cell is replaced by the literal string `"nan"` before
the membership test. -/
def fillna_isin (a : Option (List Nat)) (accepted : List (List Nat)) : Bool :=
  elem_str (a.getD (str (r"nan"))) accepted

/-- The mask of app7.py lines 206-213 (same date handling, `fillna("nan")`
before each membership test). -/
def row_mask7 (c : Criteria) (r : Row) : Bool :=
  decide (c.from_day * day_len ≤ r.ts) &&
  decide (r.ts ≤ (c.to_day + 1) * day_len - 1) &&
  fillna_isin r.year_sem c.year_sems &&
  fillna_isin r.gender c.genders &&
  fillna_isin r.branch c.branches &&
  fillna_isin r.section_type c.section_types

/-- The `df.loc[mask]` of app7.py. -/
def filter_rows7 (c : Criteria) (rows : List Row) : List Row :=
  rows.filter (row_mask7 c)

/-! ## Aggregation (app6.py `calculate_average_scores`) -/

/-- One table column: its header and its cells in row order (a cell is
`none` when the respondent skipped the subject). -/
structure Col where
  hdr : List Nat
  cells : List (Option (List Nat))
deriving DecidableEq

/-- The series `df[column].apply(convert_rating_to_score).dropna().tolist()`: the
scores of the recognized cells, in row order. -/
def column_valid_scores (cells : List (Option (List Nat))) : List Nat :=
  cells.filterMap convert_rating_to_score

/-- Append `v` to the list stored under `k`, inserting a new entry at the
end when `k` is absent (Python dict update + `list.extend`). -/
def extend_entry (k : List Nat) (v : List Nat) :
    List (List Nat × List Nat) → List (List Nat × List Nat)
  | [] => [(k, v)]
  | (k2, l) :: rest =>
    if k2 = k then (k2, l ++ v) :: rest else (k2, l) :: extend_entry k v rest

/-- The column loop of app6.py lines 63-76 over `accumulated_scores`. -/
def accumulate_scores : List Col → List (List Nat × List Nat) → List (List Nat × List Nat)
  | [], acc => acc
  | c :: cols, acc =>
    match subject_of_header c.hdr with
    | none => accumulate_scores cols acc
    | some name =>
      let vs := column_valid_scores c.cells
      if vs = [] then accumulate_scores cols acc
      else accumulate_scores cols (extend_entry name vs acc)

/-- The dict `accumulated_scores` after the whole column loop. -/
def accumulated_scores (df : List Col) : List (List Nat × List Nat) :=
  accumulate_scores df []

/-- Python `sum(scores) / len(scores)` as an exact rational. -/
def avgQ (l : List Nat) : ℚ :=
  (l.map (fun n : Nat => (n : ℚ))).sum / (l.length : ℚ)

/-- The `average_scores` mapping built by app6.py lines 78-81. -/
def average_scores (df : List Col) : List (List Nat × ℚ) :=
  (accumulated_scores df).filterMap
    (fun p => if p.2 = [] then none else some (p.1, avgQ p.2))

/-- The `subject_scores` mapping built by app6.py lines 78-82. -/
def subject_scores (df : List Col) : List (List Nat × List Nat) :=
  (accumulated_scores df).filter (fun p => decide (p.2 ≠ []))

/-- The fraction `num_responses / total_responses` underlying the
`Response Rate (%)` column of app5.py line 161 / app7.py line 230. -/
def response_rate (cnt total : Nat) : ℚ := (cnt : ℚ) / (total : ℚ)

/-- Total number of scores stored under key `k` in an accumulator. -/
def acc_len (k : List Nat) : List (List Nat × List Nat) → Nat
  | [] => 0
  | (k2, l) :: rest => (if k2 = k then l.length else 0) + acc_len k rest

/-- Sum of the lengths of all stored score lists. -/
def total_len (acc : List (List Nat × List Nat)) : Nat :=
  (acc.map (fun p => p.2.length)).sum

/-! ## Distribution summarizer (app5.py lines 179-190) -/

/-- Insert into an ascending list. -/
def insert_asc (x : Nat) : List Nat → List Nat
  | [] => [x]
  | y :: ys => if x ≤ y then x :: y :: ys else y :: insert_asc x ys

/-- Sort ascending (`sort_index()`). -/
def sort_asc : List Nat → List Nat
  | [] => []
  | x :: xs => insert_asc x (sort_asc xs)

/-- Rounding half to even, numpy's documented rule for `.round`. -/
def round_half_even (q : ℚ) : ℤ :=
  if q - ⌊q⌋ < 1 / 2 then ⌊q⌋
  else if 1 / 2 < q - ⌊q⌋ then ⌊q⌋ + 1
  else if Even ⌊q⌋ then ⌊q⌋ else ⌊q⌋ + 1

/-- Pandas `.round(1)`: round to one decimal place. -/
def round1 (q : ℚ) : ℚ := (round_half_even (q * 10) : ℚ) / 10

/-- The per-subject distribution of app5.py lines 181-190:
`value_counts().sort_index()` grouped counts and
`(score_dist / total * 100).round(1)` percentages, ascending by score. -/
def summarize (l : List Nat) : List (Nat × Nat × ℚ) :=
  (sort_asc l.dedup).map
    (fun s => (s, l.count s, round1 ((l.count s : ℚ) / (l.length : ℚ) * 100)))

example : extract_label (str (r"Subject [DBMS]")) = some (str (r"DBMS")) := by decide
example : subject_of_header (str (r"Subjects [ dbms ]")) = some (str (r"DBMS")) := by decide
example : subject_of_header (str (r"Name")) = none := by decide
example : extract_label (str (r"Subject []")) = none := by decide
example : normalize_subject_name (str (r" dbms  ")) = str (r"DBMS") := by decide
example : convert_rating_to_score (some (str (r"Excellent"))) = some 5 := by decide
example :
    subject_scores
      [⟨str (r"Subject [DBMS]"), [some (str (r"Excellent"))]⟩,
       ⟨str (r"Subjects [ dbms ]"), [some (str (r"Good"))]⟩,
       ⟨str (r"Name"), [some (str (r"A"))]⟩] = [(str (r"DBMS"), [5, 3])] := by decide
/-! ## Concrete data for the claims' example instances -/

/-- The header `"Subject [DBMS]"`. -/
def hdr_dbms : List Nat := str (r"Subject [DBMS]")

/-- The header `"Subjects [ dbms ]"`. -/
def hdr_dbms2 : List Nat := str (r"Subjects [ dbms ]")

/-- The header `"Name"`. -/
def hdr_name : List Nat := str (r"Name")

/-- The shared normalized SubjectKey `"DBMS"`. -/
def key_dbms : List Nat := str (r"DBMS")

/-- A table whose two rating columns both normalize to `"DBMS"`, plus a
non-rating column, over one filtered row. -/
def ex_df3 : List Col :=
  [⟨hdr_dbms, [some (str (r"Excellent"))]⟩,
   ⟨hdr_dbms2, [some (str (r"Good"))]⟩,
   ⟨hdr_name, [some (str (r"A"))]⟩]

/-- One subject-column over four filtered rows rated
Excellent, Good, missing, Poor. -/
def ex_df6 : List Col :=
  [⟨hdr_dbms,
    [some (str (r"Excellent")), some (str (r"Good")), none, some (str (r"Poor"))]⟩]

/-- Two columns pooled into the single subject `"DBMS"` over one filtered
row, each rated Good. -/
def ex_df1 : List Col :=
  [⟨hdr_dbms, [some (str (r"Good"))]⟩, ⟨hdr_dbms2, [some (str (r"Good"))]⟩]

/-- A row stamped 2024-01-01T23:59:00 (day 19723 since the epoch). -/
def ex_row_2359 : Row :=
  ⟨19723 * day_len + 86340,
   some (str (r"III-I")), some (str (r"Male")), some (str (r"CSE")), some (str (r"Regular"))⟩

/-- A row stamped 2024-01-02T00:00:01 with the same categorical values. -/
def ex_row_0001 : Row :=
  ⟨19724 * day_len + 1,
   some (str (r"III-I")), some (str (r"Male")), some (str (r"CSE")), some (str (r"Regular"))⟩

/-- Criteria from=2024-01-01, to=2024-01-01, each accepted set holding the
rows' categorical values. -/
def ex_crit_jan : Criteria :=
  ⟨19723, 19723, [str (r"III-I")], [str (r"Male"), str (r"Female")],
   [str (r"CSE")], [str (r"Regular")]⟩

/-- A row whose gender cell is missing, inside the date range of
`ex_crit_jan`. -/
def ex_row_nog : Row :=
  ⟨19723 * day_len, some (str (r"III-I")), none, some (str (r"CSE")), some (str (r"Regular"))⟩

/-- Criteria accepting genders {Male, Female} and the other values of
`ex_row_nog`. -/
def ex_crit_mf : Criteria :=
  ⟨19723, 19723, [str (r"III-I")], [str (r"Male"), str (r"Female")],
   [str (r"CSE")], [str (r"Regular")]⟩

/-- Criteria `ex_crit_mf` with the missing-sentinel `"nan"` added to the accepted
genders. -/
def ex_crit_mfn : Criteria :=
  ⟨19723, 19723, [str (r"III-I")], [str (r"Male"), str (r"Female"), str (r"nan")],
   [str (r"CSE")], [str (r"Regular")]⟩

/-! ## Substring search and `str.find` characterizations -/

theorem starts_with_iff (pat : List Nat) :
    ∀ s : List Nat, starts_with pat s = true ↔ ∃ v, s = pat ++ v := by
  induction pat with
  | nil => intro s; simp [starts_with]
  | cons p ps ih =>
    intro s
    cases s with
    | nil => simp [starts_with]
    | cons c cs =>
      simp only [starts_with, Bool.and_eq_true, decide_eq_true_eq, ih, List.cons_append]
      constructor
      · rintro ⟨rfl, v, rfl⟩; exact ⟨v, rfl⟩
      · rintro ⟨v, h⟩
        rw [List.cons_eq_cons] at h
        exact ⟨h.1.symm, v, h.2⟩

theorem contains_sub_iff (pat : List Nat) :
    ∀ s : List Nat, contains_sub pat s = true ↔ ∃ u v, s = u ++ pat ++ v := by
  intro s
  induction s with
  | nil =>
    simp only [contains_sub, starts_with_iff]
    constructor
    · rintro ⟨v, h⟩; exact ⟨[], v, by simpa using h⟩
    · rintro ⟨u, v, h⟩
      rcases List.append_eq_nil.mp (List.append_eq_nil.mp h.symm).1 with ⟨h1, h2⟩
      exact ⟨v, by simp [h1, h2, (List.append_eq_nil.mp h.symm).2]⟩
  | cons c cs ih =>
    simp only [contains_sub, Bool.or_eq_true, starts_with_iff, ih]
    constructor
    · rintro (⟨v, h⟩ | ⟨u, v, h⟩)
      · exact ⟨[], v, by simpa using h⟩
      · exact ⟨c :: u, v, by simp [h]⟩
    · rintro ⟨u, v, h⟩
      cases u with
      | nil => exact Or.inl ⟨v, by simpa using h⟩
      | cons x u =>
        rw [List.cons_append, List.cons_append, List.cons_eq_cons] at h
        exact Or.inr ⟨u, v, by simpa using h.2⟩

/-- Where `py_find` lands: `-1` exactly when the character is absent,
otherwise the index of its first occurrence. -/
theorem py_find_spec (c : Nat) :
    ∀ s : List Nat,
      (py_find c s = -1 ∧ ∀ k : Nat, s[k]? ≠ some c) ∨
      (∃ n : Nat, py_find c s = n ∧ s[n]? = some c ∧ ∀ k < n, s[k]? ≠ some c) := by
  intro s
  induction s with
  | nil => exact Or.inl ⟨rfl, by simp⟩
  | cons d ds ih =>
    by_cases hdc : d = c
    · refine Or.inr ⟨0, by simp [py_find, hdc], by simp [hdc], by omega⟩
    · rcases ih with ⟨h1, h2⟩ | ⟨n, h1, h2, h3⟩
      · refine Or.inl ⟨by simp [py_find, hdc, h1], ?_⟩
        intro k
        cases k with
        | zero => simpa using hdc
        | succ k => simpa using h2 k
      · refine Or.inr ⟨n + 1, ?_, by simpa using h2, ?_⟩
        · have hn : ¬ ((n : Int) < 0) := by omega
          simp [py_find, hdc, h1, hn]
        · intro k hk
          cases k with
          | zero => simpa using hdc
          | succ k => simpa using h3 k (by omega)

theorem round_half_even_intCast (n : ℤ) : round_half_even (n : ℚ) = n := by
  simp [round_half_even]

theorem round1_eq_of_mul_ten (q : ℚ) (n : ℤ) (h : q * 10 = (n : ℚ)) :
    round1 q = (n : ℚ) / 10 := by
  rw [round1, h, round_half_even_intCast]

example :
    average_scores
      [⟨str (r"Subject [DBMS]"),
        [some (str (r"Excellent")), some (str (r"Good")), none, some (str (r"Poor"))]⟩] =
      [(str (r"DBMS"), 3)] := by
  have h : accumulated_scores
      [⟨str (r"Subject [DBMS]"),
        [some (str (r"Excellent")), some (str (r"Good")), none, some (str (r"Poor"))]⟩] =
      [(str (r"DBMS"), [5, 3, 1])] := by decide
  rw [average_scores, h]
  have ha : avgQ [5, 3, 1] = 3 := by norm_num [avgQ]
  simp [List.filterMap_cons, ha]

example :
    summarize [5, 5, 3, 1] = [(1, 1, 25), (3, 1, 25), (5, 2, 50)] := by
  have h : sort_asc (List.dedup [5, 5, 3, 1]) = [1, 3, 5] := by decide
  rw [summarize, h]
  have p1 : round1 (25 : ℚ) = 25 := by
    rw [round1_eq_of_mul_ten _ 250 (by norm_num)]; norm_num
  have p2 : round1 (50 : ℚ) = 50 := by
    rw [round1_eq_of_mul_ten _ 500 (by norm_num)]; norm_num
  simp only [List.map]
  norm_num [p1, p2]

example : response_rate 3 4 = 3 / 4 := by norm_num [response_rate]

/-! ## Normalizer lemmas -/

/-- Words produced by `split_ws_aux` are nonempty and whitespace-free when
the running word is whitespace-free. -/
theorem split_ws_aux_words :
    ∀ (s : List Nat) (cur : List Nat), (∀ c ∈ cur, is_ws c = false) →
      ∀ w ∈ split_ws_aux cur s, w ≠ [] ∧ ∀ c ∈ w, is_ws c = false := by
  intro s
  induction s with
  | nil =>
    intro cur hcur w hw
    by_cases h : cur = []
    · simp [split_ws_aux, h] at hw
    · simp only [split_ws_aux, if_neg h, List.mem_singleton] at hw
      subst hw
      refine ⟨by simpa using h, fun c hc => hcur c (by simpa using hc)⟩
  | cons d ds ih =>
    intro cur hcur w hw
    by_cases hd : is_ws d
    · by_cases h : cur = []
      · rw [split_ws_aux, if_pos hd, if_pos h] at hw
        exact ih [] (by simp) w hw
      · rw [split_ws_aux, if_pos hd, if_neg h] at hw
        rcases List.mem_cons.mp hw with hw | hw
        · subst hw
          refine ⟨by simpa using h, fun c hc => hcur c (by simpa using hc)⟩
        · exact ih [] (by simp) w hw
    · rw [split_ws_aux, if_neg hd] at hw
      refine ih (d :: cur) ?_ w hw
      intro c hc
      rcases List.mem_cons.mp hc with rfl | hc
      · simpa using hd
      · exact hcur c hc

/-- Feeding a whitespace-free word into `split_ws_aux` accumulates it. -/
theorem split_ws_aux_append :
    ∀ (w cur s : List Nat), (∀ c ∈ w, is_ws c = false) →
      split_ws_aux cur (w ++ s) = split_ws_aux (w.reverse ++ cur) s := by
  intro w
  induction w with
  | nil => intro cur s _; simp
  | cons c w' ih =>
    intro cur s hw
    have hc : is_ws c = false := hw c (by simp)
    rw [List.cons_append, split_ws_aux, if_neg (by simp [hc])]
    rw [ih (c :: cur) s (fun d hd => hw d (by simp [hd]))]
    congr 1
    simp

/-- Characters of the words of `split_ws_aux` come from the running word
or the input. -/
theorem split_ws_aux_chars :
    ∀ (s cur w : List Nat), w ∈ split_ws_aux cur s → ∀ c ∈ w, c ∈ cur ∨ c ∈ s := by
  intro s
  induction s with
  | nil =>
    intro cur w hw c hc
    by_cases h : cur = []
    · simp [split_ws_aux, h] at hw
    · simp only [split_ws_aux, if_neg h, List.mem_singleton] at hw
      subst hw
      exact Or.inl (by simpa using hc)
  | cons d ds ih =>
    intro cur w hw c hc
    by_cases hd : is_ws d
    · by_cases h : cur = []
      · rw [split_ws_aux, if_pos hd, if_pos h] at hw
        rcases ih [] w hw c hc with h0 | h0
        · simp at h0
        · exact Or.inr (List.mem_cons_of_mem d h0)
      · rw [split_ws_aux, if_pos hd, if_neg h] at hw
        rcases List.mem_cons.mp hw with hw | hw
        · subst hw
          exact Or.inl (by simpa using hc)
        · rcases ih [] w hw c hc with h0 | h0
          · simp at h0
          · exact Or.inr (List.mem_cons_of_mem d h0)
    · rw [split_ws_aux, if_neg hd] at hw
      rcases ih (d :: cur) w hw c hc with h0 | h0
      · rcases List.mem_cons.mp h0 with rfl | h0
        · exact Or.inr (List.mem_cons_self c ds)
        · exact Or.inl h0
      · exact Or.inr (List.mem_cons_of_mem d h0)

/-- Joining nonempty words yields a nonempty string. -/
theorem join_sp_ne_nil :
    ∀ W : List (List Nat), (∀ w ∈ W, w ≠ []) → W ≠ [] → join_sp W ≠ [] := by
  intro W hW hne
  match W with
  | [w] => exact hW w (by simp)
  | w :: w2 :: ws =>
    have : w ≠ [] := hW w (by simp)
    cases w with
    | nil => exact absurd rfl this
    | cons x xs => simp [join_sp]

/-- A character of `join_sp W` is a character of a word of `W` or the
joining space. -/
theorem join_sp_mem :
    ∀ W : List (List Nat), ∀ c ∈ join_sp W, (∃ w ∈ W, c ∈ w) ∨ c = 32 := by
  intro W
  induction W with
  | nil => intro c hc; simp [join_sp] at hc
  | cons w ws ih =>
    intro c hc
    cases ws with
    | nil => exact Or.inl ⟨w, by simp, by simpa [join_sp] using hc⟩
    | cons w2 ws2 =>
      rw [show join_sp (w :: w2 :: ws2) = w ++ 32 :: join_sp (w2 :: ws2) from rfl] at hc
      rcases List.mem_append.mp hc with hc | hc
      · exact Or.inl ⟨w, by simp, hc⟩
      · rcases List.mem_cons.mp hc with rfl | hc
        · exact Or.inr rfl
        · rcases ih c hc with ⟨w0, hw0, hcw⟩ | hc
          · exact Or.inl ⟨w0, List.mem_cons_of_mem w hw0, hcw⟩
          · exact Or.inr hc

/-- Splitting undoes joining on nonempty whitespace-free words. -/
theorem split_ws_join :
    ∀ W : List (List Nat), (∀ w ∈ W, w ≠ [] ∧ ∀ c ∈ w, is_ws c = false) →
      split_ws (join_sp W) = W := by
  intro W
  induction W with
  | nil => simp [split_ws, join_sp, split_ws_aux]
  | cons w ws ih =>
    intro hW
    obtain ⟨hw_ne, hw_ws⟩ := hW w (by simp)
    cases ws with
    | nil =>
      show split_ws_aux [] (join_sp [w]) = [w]
      rw [show join_sp [w] = w from rfl, show w = w ++ [] by simp,
        split_ws_aux_append w [] [] hw_ws]
      rw [split_ws_aux, if_neg (by simpa using hw_ne)]
      simp
    | cons w2 ws2 =>
      show split_ws_aux [] (join_sp (w :: w2 :: ws2)) = w :: w2 :: ws2
      rw [show join_sp (w :: w2 :: ws2) = w ++ 32 :: join_sp (w2 :: ws2) from rfl,
        split_ws_aux_append w [] _ hw_ws]
      rw [split_ws_aux, if_pos (by decide), if_neg (by simpa using hw_ne)]
      have hrev : (w.reverse ++ []).reverse = w := by simp
      rw [hrev]
      exact congrArg (w :: ·) (ih fun w0 hw0 => hW w0 (List.mem_cons_of_mem w hw0))

/-- The first character of a join of good words is not whitespace. -/
theorem join_sp_head :
    ∀ W : List (List Nat), (∀ w ∈ W, w ≠ [] ∧ ∀ c ∈ w, is_ws c = false) →
      ∀ c, (join_sp W).head? = some c → is_ws c = false := by
  intro W hW c hc
  match W with
  | [] => simp [join_sp] at hc
  | [w] =>
    obtain ⟨hne, hws⟩ := hW w (by simp)
    rw [show join_sp [w] = w from rfl] at hc
    exact hws c (by
      cases w with
      | nil => simp at hc
      | cons x xs => simp at hc; simp [hc])
  | w :: w2 :: ws =>
    obtain ⟨hne, hws⟩ := hW w (by simp)
    rw [show join_sp (w :: w2 :: ws) = w ++ 32 :: join_sp (w2 :: ws) from rfl] at hc
    cases w with
    | nil => exact absurd rfl hne
    | cons x xs =>
      rw [List.cons_append, List.head?_cons] at hc
      cases hc
      exact hws c (by simp)

/-- The last character of a join of good words is not whitespace. -/
theorem join_sp_getLast :
    ∀ W : List (List Nat), (∀ w ∈ W, w ≠ [] ∧ ∀ c ∈ w, is_ws c = false) →
      ∀ c, (join_sp W).getLast? = some c → is_ws c = false := by
  intro W
  induction W with
  | nil => intro _ c hc; simp [join_sp] at hc
  | cons w ws ih =>
    intro hW c hc
    cases ws with
    | nil =>
      obtain ⟨hne, hws⟩ := hW w (by simp)
      rw [show join_sp [w] = w from rfl] at hc
      exact hws c (List.mem_of_getLast?_eq_some hc)
    | cons w2 ws2 =>
      have hgood : ∀ w0 ∈ w2 :: ws2, w0 ≠ [] ∧ ∀ c ∈ w0, is_ws c = false :=
        fun w0 hw0 => hW w0 (List.mem_cons_of_mem w hw0)
      have hJne : join_sp (w2 :: ws2) ≠ [] :=
        join_sp_ne_nil _ (fun w0 hw0 => (hgood w0 hw0).1) (by simp)
      rw [show join_sp (w :: w2 :: ws2) = w ++ 32 :: join_sp (w2 :: ws2) from rfl,
        List.getLast?_append_of_ne_nil _ (by simp)] at hc
      cases hJ : join_sp (w2 :: ws2) with
      | nil => exact absurd hJ hJne
      | cons j js =>
        rw [hJ, List.getLast?_cons_cons, ← hJ] at hc
        exact ih hgood c hc

/-- Stripping a join of good words changes nothing. -/
theorem py_strip_join :
    ∀ W : List (List Nat), (∀ w ∈ W, w ≠ [] ∧ ∀ c ∈ w, is_ws c = false) →
      py_strip (join_sp W) = join_sp W := by
  intro W hW
  rw [py_strip]
  have h1 : (join_sp W).dropWhile is_ws = join_sp W := by
    cases hJ : join_sp W with
    | nil => simp
    | cons x xs =>
      have hx : is_ws x = false := join_sp_head W hW x (by rw [hJ]; rfl)
      rw [List.dropWhile_cons_of_neg (by simp [hx])]
  rw [h1]
  have h2 : (join_sp W).reverse.dropWhile is_ws = (join_sp W).reverse := by
    cases hr : (join_sp W).reverse with
    | nil => simp
    | cons x xs =>
      have hx0 : (join_sp W).getLast? = some x := by
        rw [← List.head?_reverse, hr]; rfl
      have hx : is_ws x = false := join_sp_getLast W hW x hx0
      rw [List.dropWhile_cons_of_neg (by simp [hx])]
  rw [h2, List.reverse_reverse]

theorem py_upper_ch_idem (c : Nat) : py_upper_ch (py_upper_ch c) = py_upper_ch c := by
  simp only [py_upper_ch]
  split_ifs <;> omega

/-- Mapping a function that fixes every element of a list is the
identity. -/
theorem map_id_of_mem {α : Type} (f : α → α) :
    ∀ l : List α, (∀ a ∈ l, f a = a) → l.map f = l := by
  intro l
  induction l with
  | nil => intro _; rfl
  | cons a l ih =>
    intro h
    rw [List.map_cons, h a (by simp), ih fun b hb => h b (List.mem_cons_of_mem a hb)]

/-- C9's heart: normalization is idempotent. -/
theorem normalize_subject_name_idem (s : List Nat) :
    normalize_subject_name (normalize_subject_name s) = normalize_subject_name s := by
  have good : ∀ w ∈ split_ws ((py_strip s).map py_upper_ch),
      w ≠ [] ∧ ∀ c ∈ w, is_ws c = false :=
    fun w hw => split_ws_aux_words _ [] (by simp) w hw
  show normalize_subject_name (join_sp (split_ws ((py_strip s).map py_upper_ch))) = _
  rw [normalize_subject_name, py_strip_join _ good]
  have hfix : (join_sp (split_ws ((py_strip s).map py_upper_ch))).map py_upper_ch =
      join_sp (split_ws ((py_strip s).map py_upper_ch)) := by
    apply map_id_of_mem
    intro c hc
    rcases join_sp_mem _ c hc with ⟨w, hw, hcw⟩ | rfl
    · rcases split_ws_aux_chars _ [] w hw c hcw with h0 | h0
      · simp at h0
      · rcases List.mem_map.mp h0 with ⟨d, _, rfl⟩
        exact py_upper_ch_idem d
    · rfl
  rw [hfix, split_ws_join _ good]
  rfl

/-! ## Rating-scale and aggregation lemmas -/

theorem convert_score_bounds :
    ∀ x s, convert_rating_to_score x = some s → 1 ≤ s ∧ s ≤ 5 := by
  intro x s h
  cases x with
  | none => exact absurd h (by simp [convert_rating_to_score])
  | some r =>
    rw [convert_rating_to_score] at h
    split_ifs at h <;> (injection h with h; omega)

theorem column_valid_scores_bounds (cells : List (Option (List Nat))) :
    ∀ x ∈ column_valid_scores cells, 1 ≤ x ∧ x ≤ 5 := by
  intro x hx
  rcases List.mem_filterMap.mp hx with ⟨c, _, hc⟩
  exact convert_score_bounds c x hc

theorem column_valid_scores_le (cells : List (Option (List Nat))) :
    (column_valid_scores cells).length ≤ cells.length :=
  List.length_filterMap_le _ _
/-- Unfolding `accumulate_scores` over an unclassified column. -/
theorem accumulate_cons_none {c : Col} {cols : List Col} {acc : List (List Nat × List Nat)}
    (h : subject_of_header c.hdr = none) :
    accumulate_scores (c :: cols) acc = accumulate_scores cols acc := by
  rw [accumulate_scores, h]

/-- Unfolding `accumulate_scores` over a classified column with no
recognized cell. -/
theorem accumulate_cons_nil {c : Col} {cols : List Col} {acc : List (List Nat × List Nat)}
    {name : List Nat} (h : subject_of_header c.hdr = some name)
    (hvs : column_valid_scores c.cells = []) :
    accumulate_scores (c :: cols) acc = accumulate_scores cols acc := by
  rw [accumulate_scores, h]
  simp [hvs]

/-- Unfolding `accumulate_scores` over a contributing column. -/
theorem accumulate_cons_some {c : Col} {cols : List Col} {acc : List (List Nat × List Nat)}
    {name : List Nat} (h : subject_of_header c.hdr = some name)
    (hvs : column_valid_scores c.cells ≠ []) :
    accumulate_scores (c :: cols) acc =
      accumulate_scores cols (extend_entry name (column_valid_scores c.cells) acc) := by
  rw [accumulate_scores, h]
  simp [hvs]

/-- Key membership across `extend_entry`. -/
theorem extend_entry_keys (k v : List Nat) :
    ∀ (acc : List (List Nat × List Nat)) (k2 : List Nat),
      (∃ l, (k2, l) ∈ extend_entry k v acc) ↔ k2 = k ∨ ∃ l, (k2, l) ∈ acc := by
  intro acc
  induction acc with
  | nil =>
    intro k2
    simp [extend_entry, Prod.ext_iff]
  | cons q acc ih =>
    intro k2
    obtain ⟨k3, l3⟩ := q
    by_cases h3 : k3 = k
    · subst h3
      have he : extend_entry k3 v ((k3, l3) :: acc) = (k3, l3 ++ v) :: acc := by
        rw [extend_entry, if_pos rfl]
      rw [he]
      constructor
      · rintro ⟨l, hl⟩
        rcases List.mem_cons.mp hl with heq | hmem
        · injection heq with h1 h2
          exact Or.inl h1
        · exact Or.inr ⟨l, List.mem_cons_of_mem _ hmem⟩
      · rintro (rfl | ⟨l, hl⟩)
        · exact ⟨l3 ++ v, List.mem_cons_self _ _⟩
        · rcases List.mem_cons.mp hl with heq | hmem
          · injection heq with h1 h2
            exact ⟨l3 ++ v, by rw [h1]; exact List.mem_cons_self _ _⟩
          · exact ⟨l, List.mem_cons_of_mem _ hmem⟩
    · have he : extend_entry k v ((k3, l3) :: acc) = (k3, l3) :: extend_entry k v acc := by
        rw [extend_entry, if_neg h3]
      rw [he]
      constructor
      · rintro ⟨l, hl⟩
        rcases List.mem_cons.mp hl with heq | hmem
        · injection heq with h1 h2
          exact Or.inr ⟨l3, by rw [h1]; exact List.mem_cons_self _ _⟩
        · rcases (ih k2).mp ⟨l, hmem⟩ with h | ⟨l0, h⟩
          · exact Or.inl h
          · exact Or.inr ⟨l0, List.mem_cons_of_mem _ h⟩
      · rintro (rfl | ⟨l, hl⟩)
        · obtain ⟨l0, h⟩ := (ih _).mpr (Or.inl rfl)
          exact ⟨l0, List.mem_cons_of_mem _ h⟩
        · rcases List.mem_cons.mp hl with heq | hmem
          · injection heq with h1 h2
            exact ⟨l3, by rw [h1]; exact List.mem_cons_self _ _⟩
          · obtain ⟨l0, h⟩ := (ih k2).mpr (Or.inr ⟨l, hmem⟩)
            exact ⟨l0, List.mem_cons_of_mem _ h⟩

/-- A value invariant preserved by `extend_entry`. -/
theorem extend_entry_inv (P : List Nat → Prop)
    (happend : ∀ l1 l2, P l1 → P l2 → P (l1 ++ l2))
    (k v : List Nat) (hv : P v) :
    ∀ acc, (∀ p ∈ acc, P p.2) → ∀ p ∈ extend_entry k v acc, P p.2 := by
  intro acc
  induction acc with
  | nil =>
    intro _ p hp
    rw [extend_entry] at hp
    rcases List.mem_singleton.mp hp with rfl
    exact hv
  | cons q acc ih =>
    intro hacc p hp
    obtain ⟨k3, l3⟩ := q
    by_cases h3 : k3 = k
    · rw [extend_entry, if_pos h3] at hp
      rcases List.mem_cons.mp hp with rfl | hp
      · exact happend l3 v (hacc (k3, l3) (by simp)) hv
      · exact hacc p (List.mem_cons_of_mem _ hp)
    · rw [extend_entry, if_neg h3] at hp
      rcases List.mem_cons.mp hp with rfl | hp
      · exact hacc (k3, l3) (by simp)
      · exact ih (fun q hq => hacc q (List.mem_cons_of_mem _ hq)) p hp

theorem extend_entry_acc_len (k v : List Nat) :
    ∀ (acc : List (List Nat × List Nat)) (k2 : List Nat),
      acc_len k2 (extend_entry k v acc) =
        acc_len k2 acc + (if k = k2 then v.length else 0) := by
  intro acc
  induction acc with
  | nil =>
    intro k2
    simp only [extend_entry, acc_len]
    omega
  | cons q acc ih =>
    intro k2
    obtain ⟨k3, l3⟩ := q
    by_cases h3 : k3 = k
    · subst h3
      rw [extend_entry, if_pos rfl]
      by_cases h2 : k3 = k2
      · subst h2
        simp [acc_len, List.length_append]
        omega
      · simp [acc_len, h2]
    · rw [extend_entry, if_neg h3]
      simp only [acc_len, ih]
      omega

theorem extend_entry_total_len (k v : List Nat) :
    ∀ acc : List (List Nat × List Nat),
      total_len (extend_entry k v acc) = total_len acc + v.length := by
  intro acc
  induction acc with
  | nil => simp [extend_entry, total_len]
  | cons q acc ih =>
    obtain ⟨k3, l3⟩ := q
    by_cases h3 : k3 = k
    · rw [extend_entry, if_pos h3]
      simp only [total_len, List.map_cons, List.sum_cons, List.length_append]
      omega
    · rw [extend_entry, if_neg h3]
      simp only [total_len, List.map_cons, List.sum_cons] at ih ⊢
      omega

/-- An entry's stored list is no longer than the key's total. -/
theorem mem_acc_len (k l : List Nat) :
    ∀ acc : List (List Nat × List Nat), (k, l) ∈ acc → l.length ≤ acc_len k acc := by
  intro acc
  induction acc with
  | nil => intro h; simp at h
  | cons q acc ih =>
    intro h
    obtain ⟨k3, l3⟩ := q
    rcases List.mem_cons.mp h with heq | h
    · injection heq with h1 h2
      subst h1; subst h2
      simp [acc_len]
    · have := ih h
      simp only [acc_len]
      omega

/-- Keys present after the column loop: the initial keys plus the keys of
classified columns having at least one recognized cell. -/
theorem accumulate_scores_keys :
    ∀ (cols : List Col) (acc : List (List Nat × List Nat)) (k : List Nat),
      (∃ l, (k, l) ∈ accumulate_scores cols acc) ↔
        (∃ l, (k, l) ∈ acc) ∨
        ∃ c ∈ cols, subject_of_header c.hdr = some k ∧ column_valid_scores c.cells ≠ [] := by
  intro cols
  induction cols with
  | nil => intro acc k; simp [accumulate_scores]
  | cons c cols ih =>
    intro acc k
    cases hsub : subject_of_header c.hdr with
    | none =>
      rw [accumulate_cons_none hsub, ih]
      simp [hsub]
    | some name =>
      by_cases hvs : column_valid_scores c.cells = []
      · rw [accumulate_cons_nil hsub hvs, ih]
        simp only [List.mem_cons]
        constructor
        · rintro (h | h)
          · exact Or.inl h
          · rcases h with ⟨c0, hc0, h1, h2⟩
            exact Or.inr ⟨c0, Or.inr hc0, h1, h2⟩
        · rintro (h | ⟨c0, hc0 | hc0, h1, h2⟩)
          · exact Or.inl h
          · subst hc0; exact absurd hvs h2
          · exact Or.inr ⟨c0, hc0, h1, h2⟩
      · rw [accumulate_cons_some hsub hvs, ih, extend_entry_keys]
        simp only [List.mem_cons]
        constructor
        · rintro ((rfl | h) | h)
          · exact Or.inr ⟨c, Or.inl rfl, hsub, hvs⟩
          · exact Or.inl h
          · rcases h with ⟨c0, hc0, h1, h2⟩
            exact Or.inr ⟨c0, Or.inr hc0, h1, h2⟩
        · rintro (h | ⟨c0, hc0 | hc0, h1, h2⟩)
          · exact Or.inl (Or.inr h)
          · subst hc0
            rw [hsub] at h1
            injection h1 with h1
            exact Or.inl (Or.inl h1.symm)
          · exact Or.inr ⟨c0, hc0, h1, h2⟩

/-- After the column loop every stored list is nonempty with scores in
1..5, provided the initial accumulator satisfies the same. -/
theorem accumulate_scores_good :
    ∀ (cols : List Col) (acc : List (List Nat × List Nat)),
      (∀ p ∈ acc, p.2 ≠ [] ∧ ∀ x ∈ p.2, 1 ≤ x ∧ x ≤ 5) →
      ∀ p ∈ accumulate_scores cols acc, p.2 ≠ [] ∧ ∀ x ∈ p.2, 1 ≤ x ∧ x ≤ 5 := by
  intro cols
  induction cols with
  | nil => intro acc hacc; exact hacc
  | cons c cols ih =>
    intro acc hacc
    cases hsub : subject_of_header c.hdr with
    | none =>
      rw [accumulate_cons_none hsub]
      exact ih acc hacc
    | some name =>
      by_cases hvs : column_valid_scores c.cells = []
      · rw [accumulate_cons_nil hsub hvs]
        exact ih acc hacc
      · rw [accumulate_cons_some hsub hvs]
        refine ih _ (extend_entry_inv (fun l => l ≠ [] ∧ ∀ x ∈ l, 1 ≤ x ∧ x ≤ 5) ?_ name
          (column_valid_scores c.cells) ⟨hvs, column_valid_scores_bounds c.cells⟩ acc hacc)
        rintro l1 l2 ⟨h1ne, h1b⟩ ⟨h2ne, h2b⟩
        refine ⟨by simp [h1ne], ?_⟩
        intro x hx
        rcases List.mem_append.mp hx with hx | hx
        · exact h1b x hx
        · exact h2b x hx

/-- Per-key growth bound for the column loop. -/
theorem accumulate_scores_len :
    ∀ (cols : List Col) (acc : List (List Nat × List Nat)) (k : List Nat) (n : Nat),
      (∀ c ∈ cols, c.cells.length = n) →
      acc_len k (accumulate_scores cols acc) ≤
        acc_len k acc + n * cols.countP (fun c => decide (subject_of_header c.hdr = some k)) := by
  intro cols
  induction cols with
  | nil => intro acc k n _; simp [accumulate_scores]
  | cons c cols ih =>
    intro acc k n hn
    have hcn : c.cells.length = n := hn c (by simp)
    have hrest : ∀ c0 ∈ cols, c0.cells.length = n :=
      fun c0 h0 => hn c0 (List.mem_cons_of_mem c h0)
    have hmono : n * cols.countP (fun c => decide (subject_of_header c.hdr = some k)) ≤
        n * (c :: cols).countP (fun c => decide (subject_of_header c.hdr = some k)) := by
      refine Nat.mul_le_mul_left n ?_
      rw [List.countP_cons]
      omega
    cases hsub : subject_of_header c.hdr with
    | none =>
      rw [accumulate_cons_none hsub]
      have := ih acc k n hrest
      omega
    | some name =>
      by_cases hvs : column_valid_scores c.cells = []
      · rw [accumulate_cons_nil hsub hvs]
        have := ih acc k n hrest
        omega
      · rw [accumulate_cons_some hsub hvs]
        have h1 := ih (extend_entry name (column_valid_scores c.cells) acc) k n hrest
        rw [extend_entry_acc_len] at h1
        by_cases hk : name = k
        · subst hk
          rw [if_pos rfl] at h1
          have hv : (column_valid_scores c.cells).length ≤ n := by
            rw [← hcn]; exact column_valid_scores_le c.cells
          have hcount : (c :: cols).countP
                (fun c => decide (subject_of_header c.hdr = some name)) =
              cols.countP (fun c => decide (subject_of_header c.hdr = some name)) + 1 := by
            rw [List.countP_cons]
            simp [hsub]
          rw [hcount, Nat.mul_add, Nat.mul_one]
          omega
        · rw [if_neg hk] at h1
          have hcount : (c :: cols).countP
                (fun c => decide (subject_of_header c.hdr = some k)) =
              cols.countP (fun c => decide (subject_of_header c.hdr = some k)) := by
            rw [List.countP_cons]
            simp [hsub, hk]
          rw [hcount]
          omega

/-- Total growth bound for the column loop. -/
theorem accumulate_scores_total_len :
    ∀ (cols : List Col) (acc : List (List Nat × List Nat)) (n : Nat),
      (∀ c ∈ cols, c.cells.length = n) →
      total_len (accumulate_scores cols acc) ≤
        total_len acc + n * cols.countP (fun c => (subject_of_header c.hdr).isSome) := by
  intro cols
  induction cols with
  | nil => intro acc n _; simp [accumulate_scores]
  | cons c cols ih =>
    intro acc n hn
    have hcn : c.cells.length = n := hn c (by simp)
    have hrest : ∀ c0 ∈ cols, c0.cells.length = n :=
      fun c0 h0 => hn c0 (List.mem_cons_of_mem c h0)
    cases hsub : subject_of_header c.hdr with
    | none =>
      rw [accumulate_cons_none hsub]
      have hcount : (c :: cols).countP (fun c => (subject_of_header c.hdr).isSome) =
          cols.countP (fun c => (subject_of_header c.hdr).isSome) := by
        rw [List.countP_cons]
        simp [hsub]
      rw [hcount]
      exact ih acc n hrest
    | some name =>
      have hcount : (c :: cols).countP (fun c => (subject_of_header c.hdr).isSome) =
          cols.countP (fun c => (subject_of_header c.hdr).isSome) + 1 := by
        rw [List.countP_cons]
        simp [hsub]
      rw [hcount, Nat.mul_add, Nat.mul_one]
      by_cases hvs : column_valid_scores c.cells = []
      · rw [accumulate_cons_nil hsub hvs]
        have := ih acc n hrest
        omega
      · rw [accumulate_cons_some hsub hvs]
        have h1 := ih (extend_entry name (column_valid_scores c.cells) acc) n hrest
        rw [extend_entry_total_len] at h1
        have hv : (column_valid_scores c.cells).length ≤ n := by
          rw [← hcn]; exact column_valid_scores_le c.cells
        omega

theorem total_len_filter_le (p : List Nat × List Nat → Bool) :
    ∀ acc : List (List Nat × List Nat), total_len (acc.filter p) ≤ total_len acc := by
  intro acc
  induction acc with
  | nil => simp [total_len]
  | cons q acc ih =>
    by_cases hq : p q
    · rw [List.filter_cons_of_pos hq]
      simp only [total_len, List.map_cons, List.sum_cons] at ih ⊢
      omega
    · rw [List.filter_cons_of_neg hq]
      simp only [total_len, List.map_cons, List.sum_cons] at ih ⊢
      omega

theorem mem_average_scores (df : List Col) (k : List Nat) (q : ℚ) :
    (k, q) ∈ average_scores df ↔
      ∃ l, (k, l) ∈ accumulated_scores df ∧ l ≠ [] ∧ q = avgQ l := by
  rw [average_scores, List.mem_filterMap]
  constructor
  · rintro ⟨⟨k2, l⟩, hp, hf⟩
    dsimp only at hf
    by_cases h : l = []
    · rw [if_pos h] at hf
      exact absurd hf (by simp)
    · rw [if_neg h] at hf
      injection hf with hf
      injection hf with h1 h2
      subst h1
      exact ⟨l, hp, h, h2.symm⟩
  · rintro ⟨l, hl, hne, rfl⟩
    refine ⟨(k, l), hl, ?_⟩
    dsimp only
    rw [if_neg hne]

theorem mem_subject_scores (df : List Col) (k l : List Nat) :
    (k, l) ∈ subject_scores df ↔ (k, l) ∈ accumulated_scores df ∧ l ≠ [] := by
  rw [subject_scores, List.mem_filter]
  simp

/-- Both result mappings project the same keys. -/
theorem keys_filterMap_filter :
    ∀ acc : List (List Nat × List Nat),
      (acc.filterMap (fun p => if p.2 = [] then none else some (p.1, avgQ p.2))).map Prod.fst =
      (acc.filter (fun p => decide (p.2 ≠ []))).map Prod.fst := by
  intro acc
  induction acc with
  | nil => rfl
  | cons p acc ih =>
    by_cases h : p.2 = []
    · rw [List.filterMap_cons, List.filter_cons]
      simp [h, ih]
    · rw [List.filterMap_cons, List.filter_cons]
      simp [h, ih]

/-- Sum bounds for lists of scores in 1..5, over ℚ. -/
theorem listQ_sum_bounds :
    ∀ l : List Nat, (∀ x ∈ l, 1 ≤ x ∧ x ≤ 5) →
      (l.length : ℚ) ≤ (l.map fun n : Nat => (n : ℚ)).sum ∧
      (l.map fun n : Nat => (n : ℚ)).sum ≤ 5 * l.length := by
  intro l
  induction l with
  | nil => intro _; simp
  | cons x l ih =>
    intro h
    obtain ⟨hx1, hx5⟩ := h x (by simp)
    obtain ⟨ih1, ih2⟩ := ih fun y hy => h y (List.mem_cons_of_mem x hy)
    have hx1q : (1 : ℚ) ≤ (x : ℚ) := by exact_mod_cast hx1
    have hx5q : (x : ℚ) ≤ 5 := by exact_mod_cast hx5
    simp only [List.map_cons, List.sum_cons, List.length_cons, Nat.cast_succ]
    constructor <;> linarith

theorem avgQ_bounds (l : List Nat) (hne : l ≠ []) (hb : ∀ x ∈ l, 1 ≤ x ∧ x ≤ 5) :
    1 ≤ avgQ l ∧ avgQ l ≤ 5 := by
  have hlen : 0 < l.length := List.length_pos.mpr hne
  have hlenq : (0 : ℚ) < (l.length : ℚ) := by exact_mod_cast hlen
  obtain ⟨h1, h2⟩ := listQ_sum_bounds l hb
  rw [avgQ]
  constructor
  · rw [le_div_iff₀ hlenq]; linarith
  · rw [div_le_iff₀ hlenq]; linarith

/-! ## Sorting and membership lemmas -/

theorem mem_insert_asc (x : Nat) :
    ∀ (l : List Nat) (a : Nat), a ∈ insert_asc x l ↔ a = x ∨ a ∈ l := by
  intro l
  induction l with
  | nil => intro a; simp [insert_asc]
  | cons y ys ih =>
    intro a
    rw [insert_asc]
    by_cases h : x ≤ y
    · rw [if_pos h]
      simp [List.mem_cons]
    · rw [if_neg h]
      simp only [List.mem_cons, ih]
      tauto

theorem pairwise_insert_asc (x : Nat) :
    ∀ l : List Nat, l.Pairwise (· < ·) → x ∉ l →
      (insert_asc x l).Pairwise (· < ·) := by
  intro l
  induction l with
  | nil => intro _ _; simp [insert_asc]
  | cons y ys ih =>
    intro hp hx
    have hxy : x ≠ y := fun h => hx (h ▸ List.mem_cons_self y ys)
    have hxys : x ∉ ys := fun h => hx (List.mem_cons_of_mem y h)
    obtain ⟨hy, hys⟩ := List.pairwise_cons.mp hp
    rw [insert_asc]
    by_cases h : x ≤ y
    · rw [if_pos h]
      refine List.pairwise_cons.mpr ⟨?_, hp⟩
      intro z hz
      rcases List.mem_cons.mp hz with rfl | hz
      · omega
      · have := hy z hz
        omega
    · rw [if_neg h]
      refine List.pairwise_cons.mpr ⟨?_, ih hys hxys⟩
      intro z hz
      rcases (mem_insert_asc x ys z).mp hz with rfl | hz
      · omega
      · exact hy z hz

theorem mem_sort_asc : ∀ (l : List Nat) (a : Nat), a ∈ sort_asc l ↔ a ∈ l := by
  intro l
  induction l with
  | nil => intro a; simp [sort_asc]
  | cons x xs ih =>
    intro a
    rw [sort_asc, mem_insert_asc]
    simp [ih]

theorem pairwise_sort_asc : ∀ l : List Nat, l.Nodup → (sort_asc l).Pairwise (· < ·) := by
  intro l
  induction l with
  | nil => intro _; simp [sort_asc]
  | cons x xs ih =>
    intro hnd
    obtain ⟨hx, hxs⟩ := List.nodup_cons.mp hnd
    rw [sort_asc]
    refine pairwise_insert_asc x (sort_asc xs) (ih hxs) ?_
    rw [mem_sort_asc]
    exact hx

theorem elem_str_iff (v : List Nat) :
    ∀ ws : List (List Nat), elem_str v ws = true ↔ v ∈ ws := by
  intro ws
  induction ws with
  | nil => simp [elem_str]
  | cons w ws ih =>
    rw [elem_str]
    by_cases h : v = w
    · rw [if_pos h]
      simp [h]
    · rw [if_neg h]
      simp [ih, h]

/-- The rating scale maps exactly the five canonical labels. -/
theorem convert_rating_iff (x : Option (List Nat)) (s : Nat) :
    convert_rating_to_score x = some s ↔
      (x = some (str (r"Excellent")) ∧ s = 5) ∨
      (x = some (str (r"Very Good")) ∧ s = 4) ∨
      (x = some (str (r"Good")) ∧ s = 3) ∨
      (x = some (str (r"Fair")) ∧ s = 2) ∨
      (x = some (str (r"Poor")) ∧ s = 1) := by
  have d1 : str (r"Excellent") ≠ str (r"Very Good") := by decide
  have d2 : str (r"Excellent") ≠ str (r"Good") := by decide
  have d3 : str (r"Excellent") ≠ str (r"Fair") := by decide
  have d4 : str (r"Excellent") ≠ str (r"Poor") := by decide
  have d5 : str (r"Very Good") ≠ str (r"Good") := by decide
  have d6 : str (r"Very Good") ≠ str (r"Fair") := by decide
  have d7 : str (r"Very Good") ≠ str (r"Poor") := by decide
  have d8 : str (r"Good") ≠ str (r"Fair") := by decide
  have d9 : str (r"Good") ≠ str (r"Poor") := by decide
  have d10 : str (r"Fair") ≠ str (r"Poor") := by decide
  cases x with
  | none => simp [convert_rating_to_score]
  | some r =>
    rw [convert_rating_to_score]
    by_cases h1 : r = str (r"Excellent")
    · subst h1; rw [if_pos rfl]
      simp [d1, d2, d3, d4]
      omega
    · rw [if_neg h1]
      by_cases h2 : r = str (r"Very Good")
      · subst h2; rw [if_pos rfl]
        simp [h1, d5, d6, d7]
        omega
      · rw [if_neg h2]
        by_cases h3 : r = str (r"Good")
        · subst h3; rw [if_pos rfl]
          simp [h1, h2, d8, d9]
          omega
        · rw [if_neg h3]
          by_cases h4 : r = str (r"Fair")
          · subst h4; rw [if_pos rfl]
            simp [h1, h2, h3, d10]
            omega
          · rw [if_neg h4]
            by_cases h5 : r = str (r"Poor")
            · subst h5; rw [if_pos rfl]
              simp [h1, h2, h3, h4]
              omega
            · rw [if_neg h5]
              simp [h1, h2, h3, h4, h5]

/-! ## Remaining filter helpers -/

theorem isin_opt_iff (a : Option (List Nat)) (accepted : List (List Nat)) :
    isin_opt a accepted = true ↔ ∃ v, a = some v ∧ v ∈ accepted := by
  cases a with
  | none => simp [isin_opt]
  | some v => simp [isin_opt, elem_str_iff]

/-- First occurrences are unique. -/
theorem first_occ_unique {h : List Nat} {c : Nat} {i j : Nat}
    (hi : h[i]? = some c) (hi0 : ∀ k < i, h[k]? ≠ some c)
    (hj : h[j]? = some c) (hj0 : ∀ k < j, h[k]? ≠ some c) : i = j := by
  by_contra hne
  rcases Nat.lt_or_ge i j with hlt | hge
  · exact hj0 i hlt hi
  · exact hi0 j (by omega) hj

/-! ## The claims -/

/-- C8: `convert_rating_to_score` maps exactly the five canonical labels
Excellent, Very Good, Good, Fair, Poor to 5, 4, 3, 2, 1, and every other
input (missing cell, unrecognized text, empty string) to no score, which
is excluded from aggregation: a column's valid-score list never contains 0
and its length counts exactly the recognized cells. -/
theorem C8_rating_scale :
    (∀ (x : Option (List Nat)) (s : Nat),
        convert_rating_to_score x = some s ↔
          (x = some (str (r"Excellent")) ∧ s = 5) ∨
          (x = some (str (r"Very Good")) ∧ s = 4) ∨
          (x = some (str (r"Good")) ∧ s = 3) ∨
          (x = some (str (r"Fair")) ∧ s = 2) ∨
          (x = some (str (r"Poor")) ∧ s = 1)) ∧
    convert_rating_to_score none = none ∧
    convert_rating_to_score (some (str (r"N/A"))) = none ∧
    convert_rating_to_score (some (str (r""))) = none ∧
    (∀ cells : List (Option (List Nat)),
        (0 : Nat) ∉ column_valid_scores cells ∧
        (column_valid_scores cells).length =
          cells.countP (fun c => (convert_rating_to_score c).isSome)) := by
  refine ⟨convert_rating_iff, by decide, by decide, by decide, ?_⟩
  intro cells
  constructor
  · intro h0
    rcases List.mem_filterMap.mp h0 with ⟨c, _, hc⟩
    have := convert_score_bounds c 0 hc
    omega
  · exact List.length_filterMap_eq_countP _ _

/-- C9: subject-name normalization is idempotent, and labels differing
only in case or whitespace normalize to the same SubjectKey: " dbms  ",
"DBMS" and "Dbms" all yield "DBMS". -/
theorem C9_normalize_idempotent :
    (∀ s : List Nat,
        normalize_subject_name (normalize_subject_name s) = normalize_subject_name s) ∧
    normalize_subject_name (str (r" dbms  ")) = str (r"DBMS") ∧
    normalize_subject_name (str (r"DBMS")) = str (r"DBMS") ∧
    normalize_subject_name (str (r"Dbms")) = str (r"DBMS") := by
  exact ⟨normalize_subject_name_idem, by decide, by decide, by decide⟩

/-- C3: for the headers ["Subject [DBMS]", "Subjects [ dbms ]", "Name"],
classification maps the first two to the single SubjectKey "DBMS", whose
values are pooled into one subject, and excludes "Name". -/
theorem C3_grouping :
    subject_of_header hdr_dbms = some key_dbms ∧
    subject_of_header hdr_dbms2 = some key_dbms ∧
    subject_of_header hdr_name = none ∧
    subject_scores ex_df3 = [(key_dbms, [5, 3])] ∧
    average_scores ex_df3 = [(key_dbms, 4)] := by
  refine ⟨by decide, by decide, by decide, by decide, ?_⟩
  have h : accumulated_scores ex_df3 = [(key_dbms, [5, 3])] := by decide
  rw [average_scores, h]
  have ha : avgQ [5, 3] = 4 := by norm_num [avgQ]
  simp [List.filterMap_cons, ha]

/-- C4: the app7.py row filter treats a missing categorical value as the
explicit sentinel category "nan": a row with a missing gender behaves
exactly like a row whose gender is the literal string "nan", so it is
excluded by the accepted set {Male, Female} and included once the caller
adds "nan" to the accepted set. -/
theorem C4_missing_sentinel :
    (∀ (c : Criteria) (ts : Nat) (ys br st : Option (List Nat)),
        row_mask7 c ⟨ts, ys, none, br, st⟩ =
        row_mask7 c ⟨ts, ys, some (str (r"nan")), br, st⟩) ∧
    filter_rows7 ex_crit_mf [ex_row_nog] = [] ∧
    filter_rows7 ex_crit_mfn [ex_row_nog] = [ex_row_nog] := by
  refine ⟨?_, by decide, by decide⟩
  intro c ts ys br st
  rfl

/-- C5: the app.py row filter returns exactly the rows whose timestamp
lies in [from, to] with `to` extended to the last second of its calendar
day and whose every categorical attribute is a member of its accepted set,
preserving row order; with from = to = 2024-01-01 a row stamped
2024-01-01T23:59:00 passes and one stamped 2024-01-02T00:00:01 does not. -/
theorem C5_row_filter :
    (∀ (c : Criteria) (rows : List Row),
        (filter_rows c rows).Sublist rows ∧
        ∀ r : Row, r ∈ filter_rows c rows ↔
          r ∈ rows ∧
          c.from_day * day_len ≤ r.ts ∧
          r.ts ≤ c.to_day * day_len + 86399 ∧
          (∃ v, r.gender = some v ∧ v ∈ c.genders) ∧
          (∃ v, r.branch = some v ∧ v ∈ c.branches) ∧
          (∃ v, r.section_type = some v ∧ v ∈ c.section_types) ∧
          (∃ v, r.year_sem = some v ∧ v ∈ c.year_sems)) ∧
    filter_rows ex_crit_jan [ex_row_2359, ex_row_0001] = [ex_row_2359] := by
  refine ⟨?_, by decide⟩
  intro c rows
  refine ⟨List.filter_sublist rows, ?_⟩
  intro r
  rw [filter_rows, List.mem_filter]
  have hts : ((c.to_day + 1) * day_len - 1) = c.to_day * day_len + 86399 := by
    simp only [day_len]
    omega
  rw [row_mask]
  simp only [Bool.and_eq_true, decide_eq_true_eq, isin_opt_iff, hts]
  tauto

/-- C6: aggregation keeps a subject exactly when one of its columns has a
recognized cell among the filtered rows (an all-missing/unrecognized
subject is omitted entirely), reports mean = sum/count over the surviving
scores, and on one subject-column with cells Excellent, Good, missing,
Poor yields mean 3, scores [5, 3, 1] (count 3) and response-rate 3/4. -/
theorem C6_aggregation :
    (∀ (df : List Col) (k : List Nat),
        (∃ q, (k, q) ∈ average_scores df) ↔
          ∃ c, c ∈ df ∧ subject_of_header c.hdr = some k ∧
            column_valid_scores c.cells ≠ []) ∧
    (∀ (df : List Col) (k : List Nat) (q : ℚ),
        (k, q) ∈ average_scores df →
          ∃ l, (k, l) ∈ subject_scores df ∧ q = avgQ l) ∧
    average_scores ex_df6 = [(key_dbms, 3)] ∧
    subject_scores ex_df6 = [(key_dbms, [5, 3, 1])] ∧
    response_rate 3 4 = 3 / 4 := by
  refine ⟨?_, ?_, ?_, by decide, by norm_num [response_rate]⟩
  · intro df k
    constructor
    · rintro ⟨q, hq⟩
      obtain ⟨l, hl, _, _⟩ := (mem_average_scores df k q).mp hq
      rcases (accumulate_scores_keys df [] k).mp ⟨l, hl⟩ with ⟨l0, h0⟩ | ⟨c, hc, h1, h2⟩
      · simp at h0
      · exact ⟨c, hc, h1, h2⟩
    · rintro ⟨c, hc, h1, h2⟩
      obtain ⟨l, hl⟩ := (accumulate_scores_keys df [] k).mpr (Or.inr ⟨c, hc, h1, h2⟩)
      have hgood := accumulate_scores_good df [] (by simp) (k, l) hl
      exact ⟨avgQ l, (mem_average_scores df k (avgQ l)).mpr ⟨l, hl, hgood.1, rfl⟩⟩
  · intro df k q hq
    obtain ⟨l, hl, hne, rfl⟩ := (mem_average_scores df k q).mp hq
    exact ⟨l, (mem_subject_scores df k l).mpr ⟨hl, hne⟩, rfl⟩
  · have h : accumulated_scores ex_df6 = [(key_dbms, [5, 3, 1])] := by decide
    rw [average_scores, h]
    have ha : avgQ [5, 3, 1] = 3 := by norm_num [avgQ]
    simp [List.filterMap_cons, ha]

/-- C10: the two mappings returned by aggregation have identical key
sets; every reported average is the sum of the key's retained score list
divided by its length, every retained score lies in 1..5, and hence every
mean lies in [1, 5]. -/
theorem C10_result_invariants :
    ∀ df : List Col,
      (average_scores df).map Prod.fst = (subject_scores df).map Prod.fst ∧
      ∀ (k : List Nat) (q : ℚ), (k, q) ∈ average_scores df →
        ∃ l, (k, l) ∈ subject_scores df ∧ l ≠ [] ∧ q = avgQ l ∧
          (∀ x ∈ l, 1 ≤ x ∧ x ≤ 5) ∧ 1 ≤ q ∧ q ≤ 5 := by
  intro df
  constructor
  · rw [average_scores, subject_scores]
    exact keys_filterMap_filter _
  · intro k q hq
    obtain ⟨l, hl, hne, rfl⟩ := (mem_average_scores df k q).mp hq
    have hgood := accumulate_scores_good df [] (by simp) (k, l) hl
    have hb := avgQ_bounds l hne hgood.2
    exact ⟨l, (mem_subject_scores df k l).mpr ⟨hl, hne⟩, hne, rfl, hgood.2, hb.1, hb.2⟩

/-- C1 counterexample: with two classified columns pooled into the single
SubjectKey "DBMS" over one filtered row, the subject's surviving-score
count is 2 while the filtered row count is 1, so its response-rate is
2/1 > 1 and the sum of surviving-score counts (2) exceeds the filtered
row count times the number of subjects (1 * 1). -/
theorem C1_counterexample :
    ex_df1.map (fun c => c.cells.length) = [1, 1] ∧
    subject_scores ex_df1 = [(key_dbms, [3, 3])] ∧
    (subject_scores ex_df1).length = 1 ∧
    total_len (subject_scores ex_df1) = 2 ∧
    ¬ response_rate 2 1 ≤ 1 ∧
    ¬ total_len (subject_scores ex_df1) ≤ 1 * (subject_scores ex_df1).length := by
  refine ⟨by decide, by decide, by decide, by decide, ?_, by decide⟩
  rw [response_rate]
  norm_num

/-- C1 (amended): for every table whose columns all have `n` cells, each
subject's response-rate is nonnegative and bounded by the number of
classified columns grouped under that subject (its surviving-score count
is at most `n` times that column count), and the sum over all subjects of
the surviving-score counts is at most `n` times the number of classified
rating columns.  The original bounds ([0,1] per subject; `n` times the
number of subjects in total) hold whenever each subject key arises from
a single column. -/
theorem C1_amended :
    ∀ (df : List Col) (n : Nat),
      (∀ c ∈ df, c.cells.length = n) →
      (∀ (k l : List Nat), (k, l) ∈ subject_scores df →
          0 ≤ response_rate l.length n ∧
          l.length ≤ n * df.countP (fun c => decide (subject_of_header c.hdr = some k)) ∧
          response_rate l.length n ≤
            (df.countP (fun c => decide (subject_of_header c.hdr = some k)) : ℚ)) ∧
      total_len (subject_scores df) ≤
        n * df.countP (fun c => (subject_of_header c.hdr).isSome) := by
  intro df n hn
  constructor
  · intro k l hkl
    obtain ⟨hacc, hne⟩ := (mem_subject_scores df k l).mp hkl
    have hlen : l.length ≤ acc_len k (accumulated_scores df) := mem_acc_len k l _ hacc
    have hbound := accumulate_scores_len df [] k n hn
    have hzero : acc_len k ([] : List (List Nat × List Nat)) = 0 := rfl
    rw [hzero, Nat.zero_add] at hbound
    have hmain : l.length ≤ n * df.countP (fun c => decide (subject_of_header c.hdr = some k)) :=
      le_trans hlen hbound
    refine ⟨?_, hmain, ?_⟩
    · rw [response_rate]
      positivity
    · rw [response_rate]
      by_cases hn0 : n = 0
      · exfalso
        subst hn0
        rw [Nat.zero_mul] at hmain
        exact hne (List.length_eq_zero.mp (Nat.le_zero.mp hmain))
      · have hnpos : (0 : ℚ) < (n : ℚ) := by
          exact_mod_cast Nat.pos_of_ne_zero hn0
        rw [div_le_iff₀ hnpos]
        calc (l.length : ℚ)
            ≤ ((n * df.countP (fun c => decide (subject_of_header c.hdr = some k)) : Nat) : ℚ) := by
              exact_mod_cast hmain
          _ = (df.countP (fun c => decide (subject_of_header c.hdr = some k)) : ℚ) * (n : ℚ) := by
              push_cast
              ring
  · have hb := accumulate_scores_total_len df [] n hn
    have hz : total_len ([] : List (List Nat × List Nat)) = 0 := rfl
    rw [hz, Nat.zero_add] at hb
    exact le_trans (total_len_filter_le _ (accumulated_scores df)) hb

/-- C1 witness: the amended bound evaluated on the concrete two-column
table with one row. -/
theorem C1_witness :
    total_len (subject_scores ex_df1) ≤
      1 * ex_df1.countP (fun c => (subject_of_header c.hdr).isSome) :=
  (C1_amended ex_df1 1 (by decide)).2

/-- C2 counterexample: the header "Subject []" contains the literal
substring "Subject [" and a closing "]" (the first "]" follows the first
"["), yet the classifier does not classify it as a rating column, because
the segment strictly between the first "[" and the first "]" is empty. -/
theorem C2_counterexample :
    (∃ u v : List Nat, str (r"Subject []") = u ++ str (r"Subject [") ++ v) ∧
    (∃ i j : Nat, i < j ∧
      (str (r"Subject []"))[i]? = some 91 ∧ (str (r"Subject []"))[j]? = some 93 ∧
      (∀ k < i, (str (r"Subject []"))[k]? ≠ some 91) ∧
      (∀ k < j, (str (r"Subject []"))[k]? ≠ some 93)) ∧
    extract_label (str (r"Subject []")) = none ∧
    subject_of_header (str (r"Subject []")) = none := by
  refine ⟨⟨[], [93], by decide⟩,
    ⟨8, 9, by decide, by decide, by decide, by decide, by decide⟩, by decide, by decide⟩

/-- C2 (amended): a header is classified as a rating column iff it
contains the literal substring "Subject [" or "Subjects [" and its first
"]" lies at least two positions past its first "[" (a closing "]" with a
nonempty segment between); the extracted raw label is then exactly the
substring strictly between the first "[" and the first "]", even when
bracket-free text precedes or follows the bracketed segment. -/
theorem C2_amended :
    ∀ h : List Nat,
      ((extract_label h).isSome = true ↔
        ((∃ u v, h = u ++ str (r"Subject [") ++ v) ∨
         (∃ u v, h = u ++ str (r"Subjects [") ++ v)) ∧
        ∃ i j : Nat, i + 1 < j ∧ h[i]? = some 91 ∧ h[j]? = some 93 ∧
          (∀ k < i, h[k]? ≠ some 91) ∧ (∀ k < j, h[k]? ≠ some 93)) ∧
      ∀ i j : Nat,
        h[i]? = some 91 → (∀ k < i, h[k]? ≠ some 91) →
        h[j]? = some 93 → (∀ k < j, h[k]? ≠ some 93) →
        i + 1 < j →
        ((∃ u v, h = u ++ str (r"Subject [") ++ v) ∨
         (∃ u v, h = u ++ str (r"Subjects [") ++ v)) →
        extract_label h = some ((h.take j).drop (i + 1)) := by
  intro h
  have hpat : ∀ (hp : ((∃ u v, h = u ++ str (r"Subject [") ++ v) ∨
      (∃ u v, h = u ++ str (r"Subjects [") ++ v))),
      (contains_sub (str (r"Subjects [")) h || contains_sub (str (r"Subject [")) h) = true := by
    rintro (⟨u, v, huv⟩ | ⟨u, v, huv⟩)
    · have hx : contains_sub (str (r"Subject [")) h = true :=
        (contains_sub_iff _ h).mpr ⟨u, v, huv⟩
      simp [hx]
    · have hx : contains_sub (str (r"Subjects [")) h = true :=
        (contains_sub_iff _ h).mpr ⟨u, v, huv⟩
      simp [hx]
  constructor
  · constructor
    · intro hsome
      rw [extract_label] at hsome
      by_cases hp : (contains_sub (str (r"Subjects [")) h ||
          contains_sub (str (r"Subject [")) h) = true
      · rw [if_pos hp] at hsome
        by_cases hc : py_find 91 h + 1 > 0 ∧ py_find 93 h > py_find 91 h + 1
        · rcases py_find_spec 91 h with ⟨hneg, _⟩ | ⟨i, hfi, hgi, hmini⟩
          · rw [hneg] at hc
            omega
          · rcases py_find_spec 93 h with ⟨hneg2, _⟩ | ⟨j, hfj, hgj, hminj⟩
            · rw [hneg2, hfi] at hc
              omega
            · have hij : i + 1 < j := by
                rw [hfi, hfj] at hc
                omega
              refine ⟨?_, i, j, hij, hgi, hgj, hmini, hminj⟩
              have hp2 : contains_sub (str (r"Subjects [")) h = true ∨
                  contains_sub (str (r"Subject [")) h = true := by
                simpa using hp
              rcases hp2 with h1 | h1
              · rcases (contains_sub_iff _ h).mp h1 with ⟨u, v, huv⟩
                exact Or.inr ⟨u, v, huv⟩
              · rcases (contains_sub_iff _ h).mp h1 with ⟨u, v, huv⟩
                exact Or.inl ⟨u, v, huv⟩
        · rw [if_neg hc] at hsome
          simp at hsome
      · rw [if_neg hp] at hsome
        simp at hsome
    · rintro ⟨hp0, i, j, hij, hgi, hgj, hmini, hminj⟩
      rw [extract_label, if_pos (hpat hp0)]
      rcases py_find_spec 91 h with ⟨_, hall⟩ | ⟨i0, hfi, hgi0, hmini0⟩
      · exact absurd hgi (hall i)
      · rcases py_find_spec 93 h with ⟨_, hall2⟩ | ⟨j0, hfj, hgj0, hminj0⟩
        · exact absurd hgj (hall2 j)
        · have hii : i0 = i := first_occ_unique hgi0 hmini0 hgi hmini
          have hjj : j0 = j := first_occ_unique hgj0 hminj0 hgj hminj
          subst hii
          subst hjj
          rw [hfi, hfj, if_pos (by constructor <;> omega)]
          rfl
  · intro i j hgi hmini hgj hminj hij hp0
    rw [extract_label, if_pos (hpat hp0)]
    rcases py_find_spec 91 h with ⟨_, hall⟩ | ⟨i0, hfi, hgi0, hmini0⟩
    · exact absurd hgi (hall i)
    · rcases py_find_spec 93 h with ⟨_, hall2⟩ | ⟨j0, hfj, hgj0, hminj0⟩
      · exact absurd hgj (hall2 j)
      · have hii : i0 = i := first_occ_unique hgi0 hmini0 hgi hmini
        have hjj : j0 = j := first_occ_unique hgj0 hminj0 hgj hminj
        subst hii
        subst hjj
        rw [hfi, hfj, if_pos (by constructor <;> omega)]
        have e1 : ((i0 : Int) + 1).toNat = i0 + 1 := by omega
        have e2 : ((j0 : Int)).toNat = j0 := by omega
        rw [e1, e2]

/-- C2 witness: the amended classification rule applied to a concrete
header with bracket-free text on both sides. -/
theorem C2_witness :
    extract_label (str (r"x Subject [AB] y")) = some (str (r"AB")) := by
  have h := (C2_amended (str (r"x Subject [AB] y"))).2 10 13 (by decide) (by decide)
    (by decide) (by decide) (by decide)
    (Or.inl ⟨str (r"x "), str (r"AB] y"), by decide⟩)
  rw [h]
  decide

/-- C7: the distribution summarizer lists, ascending by score and with no
entry for absent scores, each occurring score with its occurrence count
and its percentage 100 * count / total rounded to one decimal place; on
[5, 5, 3, 1] it yields [(1,1,25.0), (3,1,25.0), (5,2,50.0)]. -/
theorem C7_summarize :
    (∀ l : List Nat,
        ((summarize l).map (fun e => e.1)).Pairwise (· < ·) ∧
        (∀ s cnt p, (s, cnt, p) ∈ summarize l →
          s ∈ l ∧ cnt = l.count s ∧
          p = round1 (100 * (l.count s : ℚ) / (l.length : ℚ))) ∧
        (∀ s ∈ l, ∃ cnt p, (s, cnt, p) ∈ summarize l)) ∧
    summarize [5, 5, 3, 1] = [(1, 1, 25), (3, 1, 25), (5, 2, 50)] := by
  constructor
  · intro l
    refine ⟨?_, ?_, ?_⟩
    · rw [summarize, List.map_map]
      have hmap : ((fun e : Nat × Nat × ℚ => e.1) ∘
          (fun s => (s, l.count s, round1 ((l.count s : ℚ) / (l.length : ℚ) * 100)))) =
          fun s : Nat => s := rfl
      rw [hmap, List.map_id']
      exact pairwise_sort_asc _ (List.nodup_dedup l)
    · intro s cnt p hmem
      rw [summarize] at hmem
      rcases List.mem_map.mp hmem with ⟨s0, hs0, heq⟩
      injection heq with h1 h2
      injection h2 with h2 h3
      subst h1
      subst h2
      subst h3
      refine ⟨List.mem_dedup.mp ((mem_sort_asc _ s0).mp hs0), rfl, ?_⟩
      congr 1
      ring
    · intro s hs
      refine ⟨l.count s, round1 ((l.count s : ℚ) / (l.length : ℚ) * 100), ?_⟩
      rw [summarize]
      exact List.mem_map.mpr ⟨s, (mem_sort_asc _ s).mpr (List.mem_dedup.mpr hs), rfl⟩
  · have h : sort_asc (List.dedup [5, 5, 3, 1]) = [1, 3, 5] := by decide
    rw [summarize, h]
    have p1 : round1 (25 : ℚ) = 25 := by
      rw [round1_eq_of_mul_ten _ 250 (by norm_num)]
      norm_num
    have p2 : round1 (50 : ℚ) = 50 := by
      rw [round1_eq_of_mul_ten _ 500 (by norm_num)]
      norm_num
    simp only [List.map]
    norm_num [p1, p2]
